import Mathlib

/-!
Verification of `mirt/generate_predictions.py` (pgao/guacamole).

The file shallowly embeds the three functions of the source module —
`parse_line`, `write_roc_datapoint` and `load_and_simulate_assessment` —
as pure Lean functions.  Python's in-place list mutation becomes explicit
state passing, `IndexError` becomes `Option`, the random source of
`random.choice` becomes an explicit numeric argument, and the output file
becomes an explicit list of lines threaded through the computation.
-/

/-! ### Python value semantics

`parse_line` tests string fields with Python tuple membership
(`line[i] in ('true', 'True', 1)`).  Python `in` compares with `==`, and a
`str` never equals an `int`, so membership of a string field in a tuple
containing the int `1` can only succeed on the string elements.  We embed
this with a small Python-value type so the test is translated literally. -/

/-- A Python value as it appears in the membership tuples of the source:
either a string or an int. -/
inductive PyVal where
  | str (s : String)
  | int (n : Int)
deriving DecidableEq

/-- Python `==` on `PyVal`: values of different types are never equal. -/
def pyEq : PyVal → PyVal → Bool
  | .str a, .str b => a == b
  | .int a, .int b => a == b
  | _, _ => false

/-- Python `x in tup`: membership by `==`. -/
def pyMem (v : PyVal) (tup : List PyVal) : Bool :=
  tup.any (pyEq v)

/-- Helper for `pySplitComma`: walk the characters, cutting at every
comma; `acc` holds the current field reversed. -/
def splitCommaAux : List Char → List Char → List String
  | [], acc => [String.mk acc.reverse]
  | c :: cs, acc =>
    if c = ',' then String.mk acc.reverse :: splitCommaAux cs []
    else splitCommaAux cs (c :: acc)

/-- Python `s.split(',')`: split at every comma, keeping empty fields
(so the empty string splits to `[""]`, as in Python). -/
def pySplitComma (s : String) : List String :=
  splitCommaAux s.data []

/-- Python `s.strip()`: drop whitespace from both ends. -/
def pyStrip (s : String) : String :=
  String.mk
    (((s.data.dropWhile Char.isWhitespace).reverse.dropWhile
      Char.isWhitespace).reverse)

/-! ### The field indexer

`FieldIndexer.get_for_slug(data_format)` lives in `train_util` (outside the
source under verification); the spec treats it as a lookup producing a
field-position mapping.  We embed just the mapping. -/

/-- Field-position mapping for one line of the comma-separated test data. -/
structure FieldIndexer where
  user : Nat
  exercise : Nat
  time_taken : Nat
  correct : Nat
deriving DecidableEq

/-- The tuple `parse_line` returns:
`(user, ex, time, correct, is_evaluation)`.  `time` stays a raw string:
the source performs no numeric conversion on it. -/
structure ParsedLine where
  user : String
  ex : String
  time : String
  correct : Bool
  is_evaluation : Bool
deriving DecidableEq

/-- The body of `parse_line(line, indexer, evaluation_item_index)` after
the split: index the field list at the configured positions.  An
out-of-range index is Python `IndexError`, embedded as `none`.  `correct`
is `line[indexer.correct] in ('true', 'True', 1)`; `is_evaluation` is
`line[evaluation_item_index] in ('true', 'True')` when the evaluation
index is configured, else `False`. -/
def parse_fields (fields : List String) (indexer : FieldIndexer)
    (evaluation_item_index : Option Nat) : Option ParsedLine :=
  (fields.get? indexer.user).bind fun user =>
  (fields.get? indexer.exercise).bind fun ex =>
  (fields.get? indexer.time_taken).bind fun time =>
  (fields.get? indexer.correct).bind fun c =>
  let correct := pyMem (.str c) [.str "true", .str "True", .int 1]
  match evaluation_item_index with
  | none => some ⟨user, ex, time, correct, false⟩
  | some i =>
    (fields.get? i).bind fun v =>
      some ⟨user, ex, time, correct, pyMem (.str v) [.str "true", .str "True"]⟩

/-- The first statement of the source function: `line.strip().split(',')`;
the remaining statements are `parse_fields` on the resulting field
list. -/
def parse_line (line : String) (indexer : FieldIndexer)
    (evaluation_item_index : Option Nat) : Option ParsedLine :=
  parse_fields (pySplitComma (pyStrip line)) indexer evaluation_item_index

/-- The field positions a run actually reads: the four indexer positions,
plus the evaluation-flag position when it is configured. -/
def configuredIndexes (indexer : FieldIndexer)
    (evaluation_item_index : Option Nat) : List Nat :=
  [indexer.user, indexer.exercise, indexer.time_taken, indexer.correct] ++
    evaluation_item_index.toList

/-! ### Item responses, datapoints and the engine -/

/-- The data of `mirt.engine.ItemResponse.new(correct=..., exercise=...,
time_taken=...)` as used by this module: the three fields the module puts
in and reads back (`item['exercise']`, `item['correct']`). -/
structure ItemResponse where
  exercise : String
  correct : Bool
  time_taken : String
deriving DecidableEq

/-- One ROC datapoint `[actual, predicted]`: `actual` is the `0`/`1`
ground truth, `predicted` the engine's probability estimate. -/
structure Datapoint where
  actual : Nat
  predicted : Rat
deriving DecidableEq

/-- Modelled from the spec: the parameters loaded from the json mirt file.
`mirt.mirt_engine.MIRTEngine` is repository code that is not under the
sources being verified; the spec (§4.4, §6) treats it as an opaque
predictor with a live-exercise restriction flag whose constructor default
is unspecified.  We therefore carry, inside the opaque parameter blob, the
constructor's default for `only_live_exercises` and the prediction
function (which may consult the flag). -/
structure Params where
  defaultOnlyLive : Bool
  acc : Bool → List ItemResponse → String → Rat

/-- Modelled from the spec: the MIRT engine, an opaque predictor holding
the `only_live_exercises` flag and the prediction behaviour. -/
structure MIRTEngine where
  only_live_exercises : Bool
  acc : Bool → List ItemResponse → String → Rat

/-- Modelled from the spec: `MIRTEngine(params)` — constructs a fresh
engine from the parameter blob; the flag takes the constructor default. -/
def MIRTEngine.new (p : Params) : MIRTEngine :=
  { only_live_exercises := p.defaultOnlyLive, acc := p.acc }

/-- Modelled from the spec: `model.estimated_exercise_accuracy(history,
exercise)` — the prediction may depend on the `only_live_exercises`
flag (the spec requires the flag disabled exactly because it changes
which exercises predictions range over). -/
def MIRTEngine.estimated_exercise_accuracy (m : MIRTEngine)
    (history : List ItemResponse) (ex : String) : Rat :=
  m.acc m.only_live_exercises history ex

/-! ### The held-out selector `write_roc_datapoint` -/

/-- Python `random.choice(range(n))` with random source `r`: raises
`IndexError` when `n = 0` (choice from an empty range), otherwise returns
an index in `[0, n)` determined by the random source. -/
def randomChoiceRange (n : Nat) (r : Nat) : Option Nat :=
  if n = 0 then none else some (r % n)

/-- Python `l.pop(i)` for a nonnegative index: returns the removed
element and the remaining list, or raises (`none`) when `i` is out of
range. -/
def popAt (l : List α) (i : Nat) : Option (α × List α) :=
  match l.get? i with
  | some x => some (x, l.eraseIdx i)
  | none => none

/-- The pop loop of `write_roc_datapoint`: repeatedly
`history.pop(evaluation_item_index)` over the index list, collecting the
popped items in loop order and threading the shrinking history. -/
def removeAll : List α → List Nat → Option (List α × List α)
  | l, [] => some ([], l)
  | l, i :: rest =>
    match popAt l i with
    | none => none
    | some (x, l') =>
      match removeAll l' rest with
      | none => none
      | some (xs, l'') => some (x :: xs, l'')

/-- `write_roc_datapoint(history, evaluation_indexes, model, outfile)`:
reverses the evaluation indexes, falls back to one uniformly random index
when there are none, pops every evaluation item out of the history, and
only then queries the model once per held-out item on the fully reduced
history.  The returned triple is (the roc points the Python function
returns, the mutated history, the output-file lines).  The source body
contains no write to `outfile`, so the line list is returned unchanged. -/
def write_roc_datapoint (history : List ItemResponse)
    (evaluation_indexes : List Nat) (model : MIRTEngine) (r : Nat)
    (outfile : List String) :
    Option (List Datapoint × List ItemResponse × List String) :=
  let idxs := evaluation_indexes.reverse
  let chosen : Option (List Nat) :=
    if idxs.isEmpty then
      match randomChoiceRange history.length r with
      | none => none
      | some c => some [c]
    else some idxs
  match chosen with
  | none => none
  | some idxs =>
    match removeAll history idxs with
    | none => none
    | some (items, remaining) =>
      some
        (items.map (fun item =>
          { actual := if item.correct then 1 else 0,
            predicted :=
              model.estimated_exercise_accuracy remaining item.exercise }),
         remaining, outfile)

/-! ### The main loop `load_and_simulate_assessment` -/

/-- The mutable local state of the main loop of
`load_and_simulate_assessment`: the active user, the current model, the
active history and evaluation indexes, the accumulated datapoints, the
output-file lines, and the number of random draws consumed so far. -/
structure LoopState where
  user : String
  model : MIRTEngine
  history : List ItemResponse
  evaluation_indexes : List Nat
  datapoints : List Datapoint
  outfile : List String
  draws : Nat

/-- The state just before the loop: `user = ''`, a model built from the
params with `model.only_live_exercises = False` set explicitly, empty
history, indexes, datapoints and output file. -/
def initState (p : Params) : LoopState :=
  { user := "",
    model := { MIRTEngine.new p with only_live_exercises := false },
    history := [], evaluation_indexes := [],
    datapoints := [], outfile := [], draws := 0 }

/-- The `if user != new_user` block of the loop body: when the incoming
record belongs to the active user, nothing happens; on a boundary, the
previous user's history is flushed through `write_roc_datapoint` —
only when the previous user is non-empty, i.e. not the initial `''` —
and user, model, history and evaluation indexes are reset. -/
def boundaryStep (p : Params) (r : Nat → Nat) (s : LoopState)
    (new_user : String) : Option LoopState :=
  if s.user = new_user then some s
  else
    match (if s.user = "" then some s
      else
        match write_roc_datapoint s.history s.evaluation_indexes
            s.model (r s.draws) s.outfile with
        | none => none
        | some (points, _, outfile') =>
          some { s with datapoints := s.datapoints ++ points,
                        outfile := outfile', draws := s.draws + 1 }) with
    | none => none
    | some s' =>
      some { s' with user := new_user, model := MIRTEngine.new p,
                     history := [], evaluation_indexes := [] }

/-- The tail of the loop body: append the parsed response to the history
and, when the record is flagged, record its position `len(history) - 1`
in the evaluation indexes. -/
def appendStep (s : LoopState) (pl : ParsedLine) : LoopState :=
  let response : ItemResponse :=
    { exercise := pl.ex, correct := pl.correct, time_taken := pl.time }
  let history' := s.history ++ [response]
  { s with
    history := history',
    evaluation_indexes :=
      if pl.is_evaluation then
        s.evaluation_indexes ++ [history'.length - 1]
      else s.evaluation_indexes }

/-- One iteration of `for line in test_data`: parse the line, run the
user-boundary block, then append the response. -/
def processLine (p : Params) (indexer : FieldIndexer)
    (evaluation_item_index : Option Nat) (r : Nat → Nat)
    (s : LoopState) (line : String) : Option LoopState :=
  match parse_line line indexer evaluation_item_index with
  | none => none
  | some pl =>
    match boundaryStep p r s pl.user with
    | none => none
    | some s2 => some (appendStep s2 pl)

/-- `load_and_simulate_assessment`: fold the loop body over the lines of
the test file, starting from the initial state, and return the collected
datapoints together with the output-file lines.  The source returns
`datapoints` directly after the loop: there is no flush of the last
active user's history. -/
def load_and_simulate_assessment (p : Params) (indexer : FieldIndexer)
    (evaluation_item_index : Option Nat) (r : Nat → Nat)
    (test_data : List String) : Option (List Datapoint × List String) :=
  match List.foldlM (processLine p indexer evaluation_item_index r)
      (initState p) test_data with
  | none => none
  | some s => some (s.datapoints, s.outfile)

/-! ### Concrete instances used in witnesses and counterexamples -/

/-- A concrete parameter blob: restriction default off, constant-zero
predictions. -/
def pConst : Params := { defaultOnlyLive := false, acc := fun _ _ _ => 0 }

/-- A parameter blob whose engine predicts `1` when the live-exercise
restriction is on and `0` when it is off, and whose constructor default
leaves the restriction on: it makes the restriction observable in the
output. -/
def pLive : Params := { defaultOnlyLive := true, acc := fun b _ _ => if b then 1 else 0 }

/-- A concrete field-position mapping: user, exercise, time, correct in
columns 0..3. -/
def fiSimple : FieldIndexer := { user := 0, exercise := 1, time_taken := 2, correct := 3 }

/-- A concrete engine for counterexamples. -/
def mConst : MIRTEngine := MIRTEngine.new pConst

/-- A concrete item response for witnesses. -/
def respC : ItemResponse := { exercise := "e1", correct := true, time_taken := "5" }

/-! ### Index-filtered sublists -/

/-- `idxFilter k l E`: the elements of `l` whose position — counting
positions from `k` — is not in `E`.  With `k = 0` this is `l` with the
positions in `E` deleted. -/
def idxFilter : Nat → List α → List Nat → List α
  | _, [], _ => []
  | k, x :: xs, E =>
    if k ∈ E then idxFilter (k + 1) xs E else x :: idxFilter (k + 1) xs E

/-- The elements of `l` at the positions outside `E`, characterized
through `enum`: each element is paired with its original index and kept
exactly when that index is not in `E`. -/
def untaintedRemainder (l : List α) (E : List Nat) : List α :=
  (l.enum.filter (fun q => decide (q.1 ∉ E))).map Prod.snd

theorem idxFilter_nil (k : Nat) (l : List α) : idxFilter k l [] = l := by
  induction l generalizing k with
  | nil => rfl
  | cons x xs ih => simp [idxFilter, ih]

theorem idxFilter_of_forall_lt (l : List α) :
    ∀ (k : Nat) (E : List Nat), (∀ e ∈ E, e < k) → idxFilter k l E = l := by
  induction l with
  | nil => intro k E _; rfl
  | cons x xs ih =>
    intro k E h
    have hk : k ∉ E := fun hm => absurd (h k hm) (lt_irrefl k)
    simp [idxFilter, hk, ih (k + 1) E (fun e he => Nat.lt_succ_of_lt (h e he))]

theorem idxFilter_cons_of_lt (l : List α) :
    ∀ (k j : Nat) (E : List Nat), j < k →
    idxFilter k l (j :: E) = idxFilter k l E := by
  induction l with
  | nil => intro k j E _; rfl
  | cons x xs ih =>
    intro k j E hj
    have hkj : ¬ k = j := by omega
    by_cases hk : k ∈ E
    · simp [idxFilter, List.mem_cons, hkj, hk, ih (k + 1) j E (by omega)]
    · simp [idxFilter, List.mem_cons, hkj, hk, ih (k + 1) j E (by omega)]

theorem idxFilter_congr_mem (l : List α) :
    ∀ (k : Nat) (E E' : List Nat), (∀ a, a ∈ E ↔ a ∈ E') →
    idxFilter k l E = idxFilter k l E' := by
  induction l with
  | nil => intro _ _ _ _; rfl
  | cons x xs ih =>
    intro k E E' h
    by_cases hk : k ∈ E
    · simp [idxFilter, hk, (h k).mp hk, ih (k + 1) E E' h]
    · have hk' : k ∉ E' := fun hc => hk ((h k).mpr hc)
      simp [idxFilter, hk, hk', ih (k + 1) E E' h]

theorem idxFilter_eraseIdx (l : List α) :
    ∀ (i k : Nat) (E : List Nat), i < l.length → (∀ e ∈ E, e < k + i) →
    idxFilter k (l.eraseIdx i) E = idxFilter k l ((k + i) :: E) := by
  induction l with
  | nil => intro i k E hi _; simp at hi
  | cons x xs ih =>
    intro i k E hi hE
    cases i with
    | zero =>
      have h1 : idxFilter k xs E = xs :=
        idxFilter_of_forall_lt xs k E (by simpa using hE)
      have h2 : idxFilter (k + 1) xs (k :: E) = xs := by
        refine idxFilter_of_forall_lt xs (k + 1) (k :: E) ?_
        intro e he
        rcases List.mem_cons.mp he with h | h
        · omega
        · have := hE e h; omega
      simp [idxFilter, h1, h2]
    | succ i' =>
      have hi' : i' < xs.length := by simpa using hi
      have hE' : ∀ e ∈ E, e < (k + 1) + i' := by
        intro e he; have := hE e he; omega
      have ht := ih i' (k + 1) E hi' hE'
      have harith : (k + 1) + i' = k + (i' + 1) := by omega
      rw [harith] at ht
      have hne : ¬ k = k + (i' + 1) := by omega
      by_cases hk : k ∈ E
      · simp [idxFilter, List.mem_cons, hne, hk, ht]
      · simp [idxFilter, List.mem_cons, hne, hk, ht]

theorem get?_eraseIdx_of_lt (l : List α) :
    ∀ (i j : Nat), j < i → (l.eraseIdx i).get? j = l.get? j := by
  induction l with
  | nil => intro i j _; simp [List.eraseIdx]
  | cons x xs ih =>
    intro i j hj
    cases i with
    | zero => omega
    | succ i' =>
      cases j with
      | zero => simp [List.eraseIdx]
      | succ j' => simpa [List.eraseIdx] using ih i' j' (by omega)

theorem idxFilter_eq_filter_enumFrom (l : List α) :
    ∀ (k : Nat) (E : List Nat),
    idxFilter k l E =
      ((List.enumFrom k l).filter (fun q => decide (q.1 ∉ E))).map Prod.snd := by
  induction l with
  | nil => intro _ _; rfl
  | cons x xs ih =>
    intro k E
    by_cases hk : k ∈ E
    · simp [idxFilter, List.enumFrom, hk, ih]
    · simp [idxFilter, List.enumFrom, hk, ih]

theorem idxFilter_zero_eq_untainted (l : List α) (E : List Nat) :
    idxFilter 0 l E = untaintedRemainder l E := by
  simpa [untaintedRemainder, List.enum] using idxFilter_eq_filter_enumFrom l 0 E

/-- The pop loop on a strictly descending, in-range index list: it
succeeds, collects exactly the elements the untouched list holds at those
indices (in loop order), and leaves the index-filtered remainder. -/
theorem removeAll_desc :
    ∀ (E : List Nat) (l : List α), List.Pairwise (· > ·) E →
    (∀ i ∈ E, i < l.length) →
    removeAll l E = some (E.filterMap l.get?, idxFilter 0 l E) := by
  intro E
  induction E with
  | nil => intro l _ _; simp [removeAll, idxFilter_nil]
  | cons i rest ih =>
    intro l hp hb
    have hi : i < l.length := hb i (List.mem_cons_self i rest)
    have hx : l.get? i = some (l.get ⟨i, hi⟩) := List.get?_eq_get hi
    have hx2 : l[i]? = some (l.get ⟨i, hi⟩) := by
      rw [← List.get?_eq_getElem?]; exact hx
    have hrest_lt : ∀ e ∈ rest, e < i :=
      fun e he => (List.pairwise_cons.mp hp).1 e he
    have hb' : ∀ e ∈ rest, e < (l.eraseIdx i).length := by
      intro e he
      have h1 : (l.eraseIdx i).length + 1 = l.length :=
        List.length_eraseIdx_add_one hi
      have := hrest_lt e he; omega
    have hrec := ih (l.eraseIdx i) (List.pairwise_cons.mp hp).2 hb'
    have hfm : rest.filterMap (l.eraseIdx i).get? = rest.filterMap l.get? :=
      List.filterMap_congr (fun e he => get?_eraseIdx_of_lt l i e (hrest_lt e he))
    have hidx : idxFilter 0 (l.eraseIdx i) rest = idxFilter 0 l (i :: rest) := by
      simpa using idxFilter_eraseIdx l i 0 rest hi (by simpa using hrest_lt)
    simp [removeAll, popAt, hx, hx2, hrec, hfm, hidx, List.filterMap_cons]

/-! ### Facts about `parse_line` -/

/-- A successful parse needs every configured field position to be inside
the field list. -/
theorem parse_fields_some_bounds (fields : List String)
    (indexer : FieldIndexer) (eidx : Option Nat) (p : ParsedLine)
    (h : parse_fields fields indexer eidx = some p) :
    ∀ i ∈ configuredIndexes indexer eidx, i < fields.length := by
  cases eidx with
  | none =>
    simp only [parse_fields, Option.bind_eq_some] at h
    obtain ⟨user, hu, ex, hex, time, ht, c, hc, hp⟩ := h
    have hub := (List.get?_eq_some.mp hu).1
    have hexb := (List.get?_eq_some.mp hex).1
    have htb := (List.get?_eq_some.mp ht).1
    have hcb := (List.get?_eq_some.mp hc).1
    intro i hi
    simp [configuredIndexes] at hi
    rcases hi with hi | hi | hi | hi <;> omega
  | some j =>
    simp only [parse_fields, Option.bind_eq_some] at h
    obtain ⟨user, hu, ex, hex, time, ht, c, hc, v, hv, hp⟩ := h
    have hub := (List.get?_eq_some.mp hu).1
    have hexb := (List.get?_eq_some.mp hex).1
    have htb := (List.get?_eq_some.mp ht).1
    have hcb := (List.get?_eq_some.mp hc).1
    have hvb := (List.get?_eq_some.mp hv).1
    intro i hi
    simp [configuredIndexes] at hi
    rcases hi with hi | hi | hi | hi | hi <;> omega

/-- C9: a line with fewer comma-separated fields than some configured
field position requires makes `parse_line` fail (Python `IndexError`,
embedded as `none`) instead of returning a record with fabricated
fields. -/
theorem malformed_line_fails (line : String) (indexer : FieldIndexer)
    (eidx : Option Nat)
    (h : ∃ i ∈ configuredIndexes indexer eidx,
      (pySplitComma (pyStrip line)).length ≤ i) :
    parse_line line indexer eidx = none := by
  rcases hres : parse_line line indexer eidx with _ | p
  · rfl
  · obtain ⟨i, hmem, hlen⟩ := h
    unfold parse_line at hres
    have := parse_fields_some_bounds _ indexer eidx p hres i hmem
    omega

/-- C9 witness: the two-field line `"u,e"` has no field at the configured
time position 2, and parsing fails. -/
theorem malformed_line_fails_witness :
    parse_line "u,e" fiSimple none = none :=
  malformed_line_fails "u,e" fiSimple none (by decide)

/-- C8: when the evaluation-flag field position is not configured,
every successfully parsed line has `is_evaluation = false`. -/
theorem eval_flag_unconfigured (line : String) (indexer : FieldIndexer)
    (p : ParsedLine) (h : parse_line line indexer none = some p) :
    p.is_evaluation = false := by
  simp only [parse_line, parse_fields, Option.bind_eq_some] at h
  obtain ⟨user, hu, ex, hex, time, ht, c, hc, hp⟩ := h
  rw [← Option.some.inj hp]

/-- C8 witness: parsing `"u,e,5,true"` with no evaluation position
yields `is_evaluation = false`. -/
theorem eval_flag_unconfigured_witness :
    ParsedLine.is_evaluation ⟨"u", "e", "5", true, false⟩ = false :=
  eval_flag_unconfigured "u,e,5,true" fiSimple ⟨"u", "e", "5", true, false⟩
    (by decide)

/-- C5 counterexample: the claim says the correct-field value `"1"`
parses as `correct = true`; on the code the field list entry is the
string `"1"`, which Python `==` never equates with the int `1` of the
membership tuple, so the line parses with `correct = false`. -/
theorem correct_field_one_parses_false :
    parse_line "u,e,5,1" fiSimple none =
      some { user := "u", ex := "e", time := "5",
             correct := false, is_evaluation := false } := by
  decide

/-- C5 amended: `parse_line` returns `correct = true` exactly when the
field at the configured correct position equals the string `"true"` or
`"True"`; the int `1` of the source's membership tuple is unreachable for
string fields, so `"1"` (and every other value) parses as false. -/
theorem correct_truthiness (line : String) (indexer : FieldIndexer)
    (eidx : Option Nat) (p : ParsedLine) (f : String)
    (h : parse_line line indexer eidx = some p)
    (hf : (pySplitComma (pyStrip line)).get? indexer.correct = some f) :
    (p.correct = true ↔ (f = "true" ∨ f = "True")) := by
  have hp : p.correct = pyMem (.str f) [.str "true", .str "True", .int 1] := by
    cases eidx with
    | none =>
      simp only [parse_line, parse_fields, Option.bind_eq_some] at h
      obtain ⟨user, hu, ex, hex, time, ht, c, hc, hp⟩ := h
      have hcf : c = f := by rw [hc] at hf; exact Option.some.inj hf
      rw [← Option.some.inj hp, hcf]
    | some j =>
      simp only [parse_line, parse_fields, Option.bind_eq_some] at h
      obtain ⟨user, hu, ex, hex, time, ht, c, hc, v, hv, hp⟩ := h
      have hcf : c = f := by rw [hc] at hf; exact Option.some.inj hf
      rw [← Option.some.inj hp, hcf]
  rw [hp]
  simp [pyMem, pyEq, List.any]

/-- C5 amended witness: the field `"True"` at the correct position parses
as `correct = true`. -/
theorem correct_truthiness_witness :
    (ParsedLine.correct ⟨"u", "e", "5", true, false⟩ = true ↔
      ("True" = "true" ∨ "True" = "True")) :=
  correct_truthiness "u,e,5,True" fiSimple none
    ⟨"u", "e", "5", true, false⟩ "True" (by decide) (by decide)

/-! ### Facts about `write_roc_datapoint` -/

/-- Evaluation of the selector on an empty evaluation-index list and a
nonempty history: the random fallback picks index `r % len`, pops it, and
emits one point for it. -/
theorem write_roc_datapoint_nil_eval (h : List ItemResponse)
    (m : MIRTEngine) (r : Nat) (out : List String) (hlen : h.length ≠ 0) :
    write_roc_datapoint h [] m r out =
      some ((([r % h.length].filterMap h.get?).map fun item =>
        { actual := if item.correct then 1 else 0,
          predicted := m.estimated_exercise_accuracy
            (idxFilter 0 h [r % h.length]) item.exercise }),
        idxFilter 0 h [r % h.length], out) := by
  have hc : r % h.length < h.length :=
    Nat.mod_lt r (Nat.pos_of_ne_zero hlen)
  have hra := removeAll_desc [r % h.length] h (by simp)
    (by intro i hi; rw [List.mem_singleton] at hi; subst hi; exact hc)
  simp [write_roc_datapoint, randomChoiceRange, hlen, hra]


/-- Evaluation of the selector on a nonempty, strictly ascending, in-range
evaluation-index list: the reversed list is popped, and one point is
emitted per popped item against the fully reduced history. -/
theorem write_roc_datapoint_some_eval (h : List ItemResponse)
    (E : List Nat) (m : MIRTEngine) (r : Nat) (out : List String)
    (hEne : E ≠ []) (hs : List.Pairwise (· < ·) E)
    (hb : ∀ i ∈ E, i < h.length) :
    write_roc_datapoint h E m r out =
      some (((E.reverse.filterMap h.get?).map fun item =>
        { actual := if item.correct then 1 else 0,
          predicted := m.estimated_exercise_accuracy
            (idxFilter 0 h E.reverse) item.exercise }),
        idxFilter 0 h E.reverse, out) := by
  have hp : List.Pairwise (· > ·) E.reverse := by
    rw [List.pairwise_reverse]; exact hs
  have hb' : ∀ i ∈ E.reverse, i < h.length := fun i hi =>
    hb i (List.mem_reverse.mp hi)
  have hra := removeAll_desc E.reverse h hp hb'
  have hne : (E.reverse).isEmpty = false := by
    rcases E with _ | ⟨e, rest⟩
    · exact absurd rfl hEne
    · simp
  simp [write_roc_datapoint, hne, hra]

/-- C7: on a history of length `N` and a strictly ascending index set
with every index below `N`, popping the indices in descending order (the
reversed set) succeeds, collects exactly the records the untouched list
holds at those positions — highest original index first — and leaves the
history equal to the original minus those positions. -/
theorem removal_order_stability (l : List α) (E : List Nat)
    (hs : List.Pairwise (· < ·) E) (hb : ∀ i ∈ E, i < l.length) :
    removeAll l E.reverse =
      some (E.reverse.filterMap l.get?, untaintedRemainder l E) := by
  have hp : List.Pairwise (· > ·) E.reverse := by
    rw [List.pairwise_reverse]; exact hs
  have hb' : ∀ i ∈ E.reverse, i < l.length := fun i hi =>
    hb i (List.mem_reverse.mp hi)
  rw [removeAll_desc E.reverse l hp hb',
    idxFilter_congr_mem l 0 E.reverse E (fun a => List.mem_reverse),
    idxFilter_zero_eq_untainted]

/-- C7 witness: popping positions 1 and 3 of a four-element list in
descending order collects the records at positions 3 then 1 and leaves
positions 0 and 2. -/
theorem removal_order_stability_witness :
    removeAll ["a", "b", "c", "d"] ([1, 3] : List Nat).reverse =
      some (([1, 3] : List Nat).reverse.filterMap (["a", "b", "c", "d"].get?),
        untaintedRemainder ["a", "b", "c", "d"] [1, 3]) :=
  removal_order_stability ["a", "b", "c", "d"] [1, 3] (by decide) (by decide)

/-- C3: for a User History with strictly ascending, in-range Evaluation
Index Set `E` (the shape the main loop always produces), any successful
finalization removes a position set `D` containing all of `E` before any
prediction is made: the remaining history handed to every prediction call
is exactly the subsequence of the original history at positions outside
`D`, so no record whose original index is in `E` reaches a prediction
call, and every emitted point's prediction is computed on that reduced
history. -/
theorem untainted_evaluation (h : List ItemResponse) (E : List Nat)
    (m : MIRTEngine) (r : Nat) (out : List String)
    (hs : List.Pairwise (· < ·) E) (hb : ∀ i ∈ E, i < h.length)
    (pts : List Datapoint) (rem : List ItemResponse) (out' : List String)
    (hrun : write_roc_datapoint h E m r out = some (pts, rem, out')) :
    ∃ (D : List Nat) (items : List ItemResponse),
      (∀ i ∈ E, i ∈ D) ∧ rem = untaintedRemainder h D ∧
      pts = items.map (fun item =>
        { actual := if item.correct then 1 else 0,
          predicted := m.estimated_exercise_accuracy rem item.exercise }) := by
  by_cases hE : E = []
  · subst hE
    rcases Nat.eq_zero_or_pos h.length with hlen | hlen
    · simp [write_roc_datapoint, randomChoiceRange, hlen] at hrun
    · rw [write_roc_datapoint_nil_eval h m r out (Nat.pos_iff_ne_zero.mp hlen)]
        at hrun
      simp only [Option.some.injEq, Prod.mk.injEq] at hrun
      obtain ⟨hpts, hrem, hout⟩ := hrun
      refine ⟨[r % h.length], [r % h.length].filterMap h.get?, by simp, ?_, ?_⟩
      · rw [← hrem]; exact idxFilter_zero_eq_untainted h [r % h.length]
      · rw [← hpts, ← hrem]
  · rw [write_roc_datapoint_some_eval h E m r out hE hs hb] at hrun
    simp only [Option.some.injEq, Prod.mk.injEq] at hrun
    obtain ⟨hpts, hrem, hout⟩ := hrun
    refine ⟨E.reverse, E.reverse.filterMap h.get?,
      fun i hi => List.mem_reverse.mpr hi, ?_, ?_⟩
    · rw [← hrem]; exact idxFilter_zero_eq_untainted h E.reverse
    · rw [← hpts, ← hrem]

/-- A second concrete item response, for witnesses. -/
def resp2 : ItemResponse := { exercise := "e2", correct := false, time_taken := "3" }

/-- C3 witness: a two-record history with `E = [1]` finalizes with the
held-out record removed from the history every prediction call sees. -/
theorem untainted_evaluation_witness :
    ∃ (D : List Nat) (items : List ItemResponse),
      (∀ i ∈ ([1] : List Nat), i ∈ D) ∧
      ([respC] : List ItemResponse) = untaintedRemainder [respC, resp2] D ∧
      ([⟨0, 0⟩] : List Datapoint) = items.map (fun item =>
        { actual := if item.correct then 1 else 0,
          predicted := mConst.estimated_exercise_accuracy [respC] item.exercise }) :=
  untainted_evaluation [respC, resp2] [1] mConst 0 [] (by decide)
    (by decide) [⟨0, 0⟩] [respC] [] (by decide)

/-- C6 counterexample: finalizing a zero-length history with an empty
Evaluation Index Set does not emit zero datapoints and succeed: the
fallback is `random.choice(range(0))`, which raises `IndexError`
(embedded: the selector returns `none`). -/
theorem empty_history_fallback_raises :
    write_roc_datapoint [] [] mConst 0 [] = none := by rfl

/-- C6 amended: with an empty Evaluation Index Set, a history of length
at least one yields exactly one datapoint, for an index chosen in
`[0, len(history))` by the random draw; a history of length zero makes
the fallback raise (`random.choice` on an empty range) instead of
emitting zero datapoints.  The main loop itself never finalizes an empty
history, because a flush only happens for a non-empty user whose first
record was appended before any further boundary. -/
theorem fallback_behavior (h : List ItemResponse) (m : MIRTEngine)
    (r : Nat) (out : List String) :
    (h ≠ [] → ∃ (pts : List Datapoint) (rem : List ItemResponse),
      write_roc_datapoint h [] m r out = some (pts, rem, out) ∧
      pts.length = 1 ∧ r % h.length < h.length) ∧
    (h = [] → write_roc_datapoint h [] m r out = none) := by
  constructor
  · intro hne
    have hlen : h.length ≠ 0 := by
      simpa [List.length_eq_zero] using hne
    have hc : r % h.length < h.length :=
      Nat.mod_lt r (Nat.pos_of_ne_zero hlen)
    have hx : h.get? (r % h.length) = some (h.get ⟨r % h.length, hc⟩) :=
      List.get?_eq_get hc
    have hx2 : h[r % h.length]? = some (h.get ⟨r % h.length, hc⟩) := by
      rw [← List.get?_eq_getElem?]; exact hx
    refine ⟨_, _, write_roc_datapoint_nil_eval h m r out hlen, ?_, hc⟩
    simp [List.filterMap_cons, hx, hx2]
  · intro he; subst he; rfl

/-- C6 amended witness: a one-record history with empty index set emits
exactly one datapoint. -/
theorem fallback_behavior_witness :
    ∃ (pts : List Datapoint) (rem : List ItemResponse),
      write_roc_datapoint [respC] [] mConst 0 [] = some (pts, rem, []) ∧
      pts.length = 1 ∧
      0 % ([respC] : List ItemResponse).length <
        ([respC] : List ItemResponse).length :=
  (fallback_behavior [respC] mConst 0 []).1 (by decide)

/-! ### The main-loop invariant -/

/-- The invariant the main loop maintains on its per-user accumulators:
the evaluation indexes are strictly increasing and each is a valid
position of the current history. -/
def EvalInv (s : LoopState) : Prop :=
  List.Pairwise (· < ·) s.evaluation_indexes ∧
    ∀ i ∈ s.evaluation_indexes, i < s.history.length

theorem boundaryStep_inv (p : Params) (r : Nat → Nat) (s s2 : LoopState)
    (new_user : String) (hinv : EvalInv s)
    (h : boundaryStep p r s new_user = some s2) : EvalInv s2 := by
  unfold boundaryStep at h
  by_cases h1 : s.user = new_user
  · rw [if_pos h1] at h
    exact (Option.some.inj h) ▸ hinv
  · rw [if_neg h1] at h
    by_cases h2 : s.user = ""
    · rw [if_pos h2] at h
      simp only [Option.some.injEq] at h
      rw [← h]
      exact ⟨List.Pairwise.nil, by simp⟩
    · rw [if_neg h2] at h
      rcases hw : write_roc_datapoint s.history s.evaluation_indexes
          s.model (r s.draws) s.outfile with _ | ⟨points, rem, outfile'⟩ <;>
        rw [hw] at h
      · simp at h
      · simp only [Option.some.injEq] at h
        rw [← h]
        exact ⟨List.Pairwise.nil, by simp⟩

theorem appendStep_inv (s : LoopState) (pl : ParsedLine)
    (hinv : EvalInv s) : EvalInv (appendStep s pl) := by
  obtain ⟨hpw, hbd⟩ := hinv
  unfold appendStep EvalInv
  by_cases he : pl.is_evaluation = true
  · simp only [he, if_pos, List.length_append, List.length_cons,
      List.length_nil, Nat.add_sub_cancel]
    constructor
    · refine List.pairwise_append.mpr ⟨hpw, List.pairwise_singleton _ _, ?_⟩
      intro a ha b hb
      rw [List.mem_singleton] at hb
      subst hb
      exact hbd a ha
    · intro i hi
      rcases List.mem_append.mp hi with hi | hi
      · have := hbd i hi; omega
      · rw [List.mem_singleton] at hi; omega
  · simp only [he, if_neg, List.length_append, List.length_cons,
      List.length_nil, Bool.false_eq_true]
    refine ⟨hpw, ?_⟩
    intro i hi
    have := hbd i hi
    omega

theorem processLine_inv (p : Params) (indexer : FieldIndexer)
    (eidx : Option Nat) (r : Nat → Nat) (s s' : LoopState) (line : String)
    (hinv : EvalInv s)
    (h : processLine p indexer eidx r s line = some s') : EvalInv s' := by
  rcases hpl : parse_line line indexer eidx with _ | pl
  · simp [processLine, hpl] at h
  · simp only [processLine, hpl] at h
    rcases hb : boundaryStep p r s pl.user with _ | s2 <;> rw [hb] at h
    · simp at h
    · simp only [Option.some.injEq] at h
      rw [← h]
      exact appendStep_inv s2 pl (boundaryStep_inv p r s s2 pl.user hinv hb)

theorem foldlM_processLine_inv (p : Params) (indexer : FieldIndexer)
    (eidx : Option Nat) (r : Nat → Nat) :
    ∀ (lines : List String) (s s' : LoopState), EvalInv s →
    List.foldlM (processLine p indexer eidx r) s lines = some s' →
    EvalInv s' := by
  intro lines
  induction lines with
  | nil =>
    intro s s' hinv h
    rw [List.foldlM_nil] at h
    exact (Option.some.inj h) ▸ hinv
  | cons l ls ih =>
    intro s s' hinv h
    rw [List.foldlM_cons] at h
    rcases hstep : processLine p indexer eidx r s l with _ | s1 <;>
      rw [hstep] at h
    · simp at h
    · exact ih s1 s'
        (processLine_inv p indexer eidx r s s1 l hinv hstep)
        (by simpa using h)

/-- C10: every reachable state of the main loop has a strictly
increasing Evaluation Index Set whose members are all valid positions of
the current history (each index was appended as `len(history) - 1`
right after the matching append); consequently plain reversal — without
any sorting — already hands the selector the strictly descending order it
needs. -/
theorem eval_indexes_invariant (p : Params) (indexer : FieldIndexer)
    (eidx : Option Nat) (r : Nat → Nat) (lines : List String)
    (s' : LoopState)
    (h : List.foldlM (processLine p indexer eidx r) (initState p) lines =
      some s') :
    List.Pairwise (· < ·) s'.evaluation_indexes ∧
    (∀ i ∈ s'.evaluation_indexes, i < s'.history.length) ∧
    List.Pairwise (· > ·) s'.evaluation_indexes.reverse := by
  have hinv : EvalInv s' :=
    foldlM_processLine_inv p indexer eidx r lines (initState p) s'
      ⟨List.Pairwise.nil, by simp [initState]⟩ h
  refine ⟨hinv.1, hinv.2, ?_⟩
  rw [List.pairwise_reverse]
  exact hinv.1

/-- C10 witness: a one-line run whose only record is flagged ends with
index set `[0]`, strictly increasing and bounded by the history length. -/
theorem eval_indexes_invariant_witness :
    ∃ s', List.foldlM (processLine pConst fiSimple (some 4) (fun _ => 0))
        (initState pConst) ["u,e,5,true,true"] = some s' ∧
      (List.Pairwise (· < ·) s'.evaluation_indexes ∧
       (∀ i ∈ s'.evaluation_indexes, i < s'.history.length) ∧
       List.Pairwise (· > ·) s'.evaluation_indexes.reverse) :=
  ⟨_, rfl, eval_indexes_invariant pConst fiSimple (some 4) (fun _ => 0)
    ["u,e,5,true,true"] _ rfl⟩

/-! ### End-to-end runs of `load_and_simulate_assessment` -/

/-- C1 (code bug): the loop of `load_and_simulate_assessment` only calls
`write_roc_datapoint` when it meets the next user's first record; after
the `for` loop the function returns `datapoints` with no flush of the
last active history.  A single-user input therefore yields no datapoint
at all, while the same records followed by another user's record yield
the datapoint the claim expects for that user. -/
theorem no_end_of_input_flush :
    load_and_simulate_assessment pConst fiSimple none (fun _ => 0)
      ["u1,e1,5,true"] = some ([], []) ∧
    load_and_simulate_assessment pConst fiSimple none (fun _ => 0)
      ["u1,e1,5,true", "u2,e1,4,true"] = some ([⟨1, 0⟩], []) := by
  exact ⟨rfl, rfl⟩

/-- C2 (code bug): `write_roc_datapoint` receives the open output file
but its body contains no write call, so a run that returns one datapoint
in memory has written zero lines to the output stream — the persisted
stream and the returned collection disagree whenever any datapoint is
produced. -/
theorem output_stream_never_written :
    load_and_simulate_assessment pConst fiSimple none (fun _ => 0)
      ["u1,e1,5,true", "u2,e1,4,true"] = some ([⟨1, 0⟩], []) ∧
    ([(⟨1, 0⟩ : Datapoint)].length = 1 ∧ ([] : List String).length = 0) := by
  exact ⟨rfl, rfl, rfl⟩

/-- C4 (code bug): `only_live_exercises = False` is set once, on the
model built before the loop — a model that is discarded at the very
first user boundary, where `model = MIRTEngine(params)` is rebuilt
without touching the flag.  With parameters whose engine predicts `1`
under the restriction and `0` without it, and whose constructor default
leaves the restriction on, the emitted prediction is `1`: the model used
for every finalization kept the constructor default instead of the
explicitly disabled flag. -/
theorem only_live_flag_lost_on_reset :
    (initState pLive).model.only_live_exercises = false ∧
    (MIRTEngine.new pLive).only_live_exercises = true ∧
    load_and_simulate_assessment pLive fiSimple none (fun _ => 0)
      ["u1,e1,5,true", "u2,e1,4,true"] = some ([⟨1, 1⟩], []) := by
  exact ⟨rfl, rfl, rfl⟩
